import Mathlib

/-!
Verification of the Amphipod Burrow Organizer (day23) against its
natural-language specification.

The Rust source (`src/bin/day23.rs`) is shallowly embedded below:
pure functions become Lean functions, `usize` becomes `Nat` (all
quantities involved are small, far from overflow), fallible or panicking
code returns `Option` (`none` models a panic), and the imperative search
loop becomes an explicit state-passing step function driven by fuel.
-/

namespace Day23

/-- Rust `enum Type` (renamed: `Type` is a Lean keyword). -/
inductive Ty where
  | A
  | B
  | C
  | D
deriving DecidableEq

/-- Rust `Type::dest_burrow`. -/
def Ty.dest_burrow : Ty → Nat
  | .A => 1
  | .B => 2
  | .C => 3
  | .D => 4

/-- Rust `Type::energy_cost`. -/
def Ty.energy_cost : Ty → Nat
  | .A => 1
  | .B => 10
  | .C => 100
  | .D => 1000

/-- Rust `Type::to_char`. -/
def Ty.to_char : Ty → Char
  | .A => 'A'
  | .B => 'B'
  | .C => 'C'
  | .D => 'D'

/-- Rust `const HALLWAY_SIZE: usize = 11`. -/
def HALLWAY_SIZE : Nat := 11

/-- Rust `const BURROW_DEPTH: usize = 2`. -/
def BURROW_DEPTH : Nat := 2

/-- Rust `enum Position`. -/
inductive Position where
  | Hallway (i : Nat)
  | Burrow (i : Nat) (j : Nat)
deriving DecidableEq

/-- Rust `Position::all`: hallway cells 0..10 in order, then the burrow
cells (1,1),(1,2),(2,1),...,(4,2) in order. -/
def Position.all : List Position :=
  (List.range HALLWAY_SIZE).map Position.Hallway ++
    (List.range 4).flatMap (fun i => (List.range 2).map (fun j => Position.Burrow (i + 1) (j + 1)))

/-- Rust `Position::hallway_above`. -/
def Position.hallway_above : Position → Option Position
  | .Burrow i _ => some (Position.Hallway (i * 2))
  | .Hallway _ => none

/-- The Hallway→Hallway branch of Rust `Position::path` (`self = Hallway i`,
`dest = Hallway j`): moving left pushes `i-1, ..., j`; moving right pushes
`i+1, ..., j`; equal indices yield `[]` (the `self == dest` early return). -/
def Position.pathHH (i j : Nat) : List Position :=
  if j < i then ((List.range' j (i - j)).map Position.Hallway).reverse
  else (List.range' (i + 1) (j - i)).map Position.Hallway

/-- Rust `Position::path`, with the bounded recursion unrolled.  The source
recurses at most twice (Burrow→Burrow goes through Burrow→Hallway, which
goes through Hallway→Hallway); each `path`/`hallway_above().unwrap()` call
has been inlined (`hallway_above` of `Burrow i _` is always
`Hallway (2*i)`).  `pathP` below is the un-inlined panic-aware
transcription; `pathP_eq_path` ties the two together. -/
def Position.path (a dest : Position) : List Position :=
  if a = dest then []
  else
    match a, dest with
    | .Hallway i, .Hallway j => Position.pathHH i j
    | .Hallway i, .Burrow bi bj =>
        Position.pathHH i (bi * 2) ++
          (if bj = 2 then [Position.Burrow bi 1] else []) ++ [Position.Burrow bi bj]
    | .Burrow i l, .Burrow k d =>
        if i = k then [Position.Burrow k d]
        else
          ((if l = 2 then [Position.Burrow i 1] else []) ++ [Position.Hallway (i * 2)] ++
              Position.pathHH (i * 2) (k * 2)) ++
            (Position.pathHH (k * 2) (k * 2) ++
              (if d = 2 then [Position.Burrow k 1] else []) ++ [Position.Burrow k d])
    | .Burrow i l, .Hallway j =>
        (if l = 2 then [Position.Burrow i 1] else []) ++ [Position.Hallway (i * 2)] ++
          Position.pathHH (i * 2) j

/-- Panic-aware transcription of Rust `Position::path`, keeping the source's
recursive structure: `none` models a panic — the final
`panic!("Can't find path ...")` branch (unreachable here because the
four-case match is exhaustive), a failed `hallway_above().unwrap()`, or
recursion deeper than the fuel allows (the source recursion has depth at
most 2, so fuel 3 always suffices). -/
def Position.pathP : Nat → Position → Position → Option (List Position)
  | 0, _, _ => none
  | fuel + 1, a, dest =>
    if a = dest then some []
    else
      match a, dest with
      | .Hallway i, .Hallway j => some (Position.pathHH i j)
      | .Hallway _, .Burrow bi bj => do
          let ha ← (Position.Burrow bi bj).hallway_above
          let positions ← Position.pathP fuel a ha
          pure (positions ++ (if bj = 2 then [Position.Burrow bi 1] else []) ++
            [Position.Burrow bi bj])
      | .Burrow i _, .Burrow k d =>
          if i = k then some [Position.Burrow k d]
          else do
            let ha ← (Position.Burrow k d).hallway_above
            let positions ← Position.pathP fuel a ha
            let rest ← Position.pathP fuel ha (Position.Burrow k d)
            pure (positions ++ rest)
      | .Burrow i l, .Hallway _ => do
          let ha ← (Position.Burrow i l).hallway_above
          let rest ← Position.pathP fuel ha dest
          pure ((if l = 2 then [Position.Burrow i 1] else []) ++ [ha] ++ rest)

/-- Exact characterisation of membership in `Position.all`. -/
def Position.valid : Position → Bool
  | .Hallway i => decide (i < HALLWAY_SIZE)
  | .Burrow b d => decide (1 ≤ b) && decide (b ≤ 4) && decide (1 ≤ d) && decide (d ≤ 2)

theorem all_eq_explicit : Position.all =
    [Position.Hallway 0, Position.Hallway 1, Position.Hallway 2, Position.Hallway 3,
     Position.Hallway 4, Position.Hallway 5, Position.Hallway 6, Position.Hallway 7,
     Position.Hallway 8, Position.Hallway 9, Position.Hallway 10,
     Position.Burrow 1 1, Position.Burrow 1 2, Position.Burrow 2 1, Position.Burrow 2 2,
     Position.Burrow 3 1, Position.Burrow 3 2, Position.Burrow 4 1, Position.Burrow 4 2] := by
  rfl

theorem mem_all_iff_valid (p : Position) : p ∈ Position.all ↔ p.valid = true := by
  cases p <;>
    simp [all_eq_explicit, Position.valid, HALLWAY_SIZE] <;>
    omega

/-- Modelled from the spec (§4.1 topology rules, no counterpart in the
source): the single-step adjacency of the burrow/hallway topology —
consecutive hallway cells, a burrow's top cell and the hallway cell above
it, and vertically consecutive cells of one burrow; only the valid cells
enumerated by `Position.all` take part. -/
def adjacent : Position → Position → Bool
  | .Hallway i, .Hallway j =>
      (i + 1 == j || j + 1 == i) && decide (i < HALLWAY_SIZE) && decide (j < HALLWAY_SIZE)
  | .Hallway i, .Burrow b d =>
      i == b * 2 && d == 1 && decide (1 ≤ b) && decide (b ≤ 4)
  | .Burrow b d, .Hallway i =>
      i == b * 2 && d == 1 && decide (1 ≤ b) && decide (b ≤ 4)
  | .Burrow b d, .Burrow b' d' =>
      b == b' && (d + 1 == d' || d' + 1 == d) && decide (1 ≤ b) && decide (b ≤ 4) &&
        decide (1 ≤ d) && decide (d ≤ 2) && decide (1 ≤ d') && decide (d' ≤ 2)

/-- Modelled from the spec: `isWalkFrom a ws b` holds when `ws` lists the
successive cells of a walk that starts at `a`, takes one `adjacent` step at
a time, and ends at `b` (so `ws` excludes `a` and, when non-trivial,
includes `b`), mirroring the shape of the sequence `path` returns. -/
def isWalkFrom : Position → List Position → Position → Bool
  | a, [], b => a == b
  | a, w :: ws, b => adjacent a w && isWalkFrom w ws b

theorem adjacent_valid {a b : Position} (h : adjacent a b = true) :
    a.valid = true ∧ b.valid = true := by
  cases a <;> cases b <;>
    simp_all [adjacent, Position.valid, HALLWAY_SIZE] <;> omega

example : (Position.Burrow 1 1).path (Position.Burrow 1 2) = [Position.Burrow 1 2] := by decide

example : (Position.Burrow 1 1).path (Position.Burrow 2 1) =
    [Position.Hallway 2, Position.Hallway 3, Position.Hallway 4, Position.Burrow 2 1] := by
  decide

example : (Position.Burrow 1 1).path (Position.Hallway 0) =
    [Position.Hallway 2, Position.Hallway 1, Position.Hallway 0] := by decide

example : ((Position.Burrow 1 1).path (Position.Hallway 10)).length = 9 := by decide

/-- Rust `struct Amphipod` (field `ty` is the Rust field `r#type`). -/
structure Amphipod where
  position : Position
  ty : Ty
  left_home : Bool
deriving DecidableEq

/-- Rust `Amphipod::new`. -/
def Amphipod.new (position : Position) (ty : Ty) : Amphipod :=
  { position := position, ty := ty, left_home := false }

/-- Rust `Amphipod::is_home`. -/
def Amphipod.is_home (a : Amphipod) : Bool :=
  match a.position with
  | .Hallway _ => false
  | .Burrow nr _ => nr == a.ty.dest_burrow

/-- Rust `Amphipod::move_to` (mutation modeled by returning the new value):
the position is updated first, and `left_home` becomes true when the new
position is not home. -/
def Amphipod.move_to (a : Amphipod) (p : Position) : Amphipod :=
  let a := { a with position := p }
  if !a.is_home then { a with left_home := true } else a

/-- Rust `Amphipod::is_in_burrow`. -/
def Amphipod.is_in_burrow (a : Amphipod) (nr : Nat) : Bool :=
  match a.position with
  | .Hallway _ => false
  | .Burrow i _ => i == nr

/-- Rust `Amphipod::is_in_bottom`. -/
def Amphipod.is_in_bottom (a : Amphipod) : Bool :=
  match a.position with
  | .Hallway _ => false
  | .Burrow _ i => i == BURROW_DEPTH

/-- Rust `struct Map`. -/
structure Map where
  pods : List Amphipod
  energy : Nat
deriving DecidableEq

/-- Rust `type Move = (Amphipod, Position)`. -/
abbrev Move := Amphipod × Position

/-- `map[r][c] = ch` on a grid of rows (out-of-range indices leave the grid
unchanged where Rust would panic; all positions drawn are in range). -/
def set2d (g : List (List Char)) (r c : Nat) (ch : Char) : List (List Char) :=
  g.set r ((g.getD r []).set c ch)

/-- The fixed background of `impl Display for Map`: a `(BURROW_DEPTH+1) ×
HALLWAY_SIZE` grid of spaces, row 0 dotted everywhere, rows 1..=2 dotted at
columns 2, 4, 6, 8. -/
def baseGrid : List (List Char) :=
  let g : List (List Char) := List.replicate (BURROW_DEPTH + 1) (List.replicate HALLWAY_SIZE ' ')
  let g := (List.range HALLWAY_SIZE).foldl (fun g i => set2d g 0 i '.') g
  (List.range' 1 BURROW_DEPTH).foldl
    (fun g i => set2d (set2d (set2d (set2d g i 2 '.') i 4 '.') i 6 '.') i 8 '.') g

/-- The character grid that `impl Display for Map` renders: each pod paints
its type character at its cell, in pod order. -/
def Map.strGrid (m : Map) : List (List Char) :=
  m.pods.foldl
    (fun g pod =>
      match pod.position with
      | .Hallway i => set2d g 0 i pod.ty.to_char
      | .Burrow i j => set2d g j (i * 2) pod.ty.to_char)
    baseGrid

/-- Rust `Map::str_rep` = `format!("{}", self)`: every row of the grid
followed by a newline. -/
def Map.str_rep (m : Map) : String :=
  String.join (m.strGrid.map (fun row => String.mk row ++ "\n"))

/-- Rust `impl PartialEq for Map`: equal rendered representation and equal
energy. -/
def Map.eq (a b : Map) : Bool := a.str_rep == b.str_rep && a.energy == b.energy

/-- The data fed to both Rust `impl PartialEq for Map` and
`impl Hash for Map`: exactly `str_rep()` plus `energy`, nothing else, so
equality and hashing coincide on this key. -/
def Map.key (m : Map) : String × Nat := (m.str_rep, m.energy)

/-- Rust `Map::complete`. -/
def Map.complete (m : Map) : Bool := m.pods.all (fun a => a.is_home)

/-- Rust `Map::occupied`. -/
def Map.occupied (m : Map) (pos : Position) : Bool := m.pods.any (fun a => a.position == pos)

/-- Rust `Map::free_spaces`. -/
def Map.free_spaces (m : Map) : List Position := Position.all.filter (fun p => !m.occupied p)

/-- The two early-`return` guards at the top of the `possible_moves` pod
loop: a pod in the bottom of its home burrow, or home again after having
left, generates no moves. -/
def podSkip (pod : Amphipod) : Bool :=
  (pod.is_in_bottom && pod.is_home) || (pod.left_home && pod.is_home)

/-- The "burrow already contains an amphipod whose destination differs"
test inside `possible_moves`. -/
def Map.burrowDirty (m : Map) (i : Nat) : Bool :=
  m.pods.any (fun op =>
    match op.position with
    | .Burrow oi _ => oi == i && !(op.ty.dest_burrow == i)
    | .Hallway _ => false)

/-- The per-free-space `return` guards of the `possible_moves` inner loop:
a burrow target must be the pod's destination burrow, not already the pod's
burrow, and not dirty; a hallway target is ruled out for a pod already in
the hallway. -/
def Map.moveGuard (m : Map) (pod : Amphipod) (f : Position) : Bool :=
  match f with
  | .Burrow i _ =>
      if pod.is_in_burrow i then false
      else if !(i == pod.ty.dest_burrow) then false
      else !(m.burrowDirty i)
  | .Hallway _ =>
      match pod.position with
      | .Hallway _ => false
      | .Burrow _ _ => true

/-- The final test of the `possible_moves` inner loop: every position on
the path to the target is unoccupied. -/
def Map.pathFree (m : Map) (pod : Amphipod) (f : Position) : Bool :=
  (pod.position.path f).all (fun p => !m.occupied p)

/-- Rust `Map::possible_moves`: for every pod (in order) and every free
space (in order), the guarded candidate moves, then the final filter
removing hallway destinations 2, 4, 6, 8 (the transit-only cells above the
burrows). -/
def Map.possible_moves (m : Map) : List Move :=
  (m.pods.flatMap (fun pod =>
    if podSkip pod then []
    else
      (m.free_spaces.filter (fun f => m.moveGuard pod f && m.pathFree pod f)).map
        (fun f => (pod, f)))).filter
    (fun mv =>
      match mv.2 with
      | .Hallway i => !(i == 2) && !(i == 4) && !(i == 6) && !(i == 8)
      | .Burrow _ _ => true)

/-- Replace the first element satisfying `p` by its image under `g`;
`none` when no element matches (where Rust `find(..).unwrap()` panics). -/
def updateFirst (p : α → Bool) (g : α → α) : List α → Option (List α)
  | [] => none
  | x :: xs => if p x then some (g x :: xs) else (updateFirst p g xs).map (fun l => x :: l)

/-- Rust `Map::do_move`: charge `distance * energy_cost`, then move the
first pod whose position matches the moved pod's position.  `none` models
the `unwrap` panic when no pod sits at that position. -/
def Map.do_move (m : Map) (mv : Move) : Option Map :=
  let distance := (mv.1.position.path mv.2).length
  (updateFirst (fun p => p.position == mv.1.position) (fun p => p.move_to mv.2) m.pods).map
    (fun pods => { pods := pods, energy := m.energy + distance * mv.1.ty.energy_cost })

/-- Rust `usize::max_value()`, the initial `lowest_energy`. -/
def USIZE_MAX : Nat := 2 ^ 64 - 1

/-- The local state of the `best_solution_imperative` while-loop: the
`VecDeque` stack (head = front), and the visited / solutions hash-sets
modeled as lists with membership tested by `Map::eq` (insertion order is
irrelevant to every property proved below). -/
structure SearchState where
  stack : List Map
  visited : List Map
  solutions : List Map
  lowest : Nat
deriving DecidableEq

/-- `HashSet::contains` under the `Map` equality (`str_rep` + `energy`). -/
def listContains (l : List Map) (m : Map) : Bool := l.any (fun x => x.eq m)

/-- `HashSet::insert` under the `Map` equality. -/
def hsInsert (l : List Map) (m : Map) : List Map := if listContains l m then l else m :: l

/-- The successor handling inside the `moves.into_iter().for_each` of
`best_solution_imperative`: skip when over the energy bound, already
visited, already stacked, or already a solution; otherwise `push_front`. -/
def pushNew (visited solutions : List Map) (lowest : Nat) (stack : List Map) (new : Map) :
    List Map :=
  if new.energy > lowest then stack
  else if listContains visited new then stack
  else if listContains stack new then stack
  else if listContains solutions new then stack
  else new :: stack

/-- One iteration of the `best_solution_imperative` while-loop:
`pop_front`; skip if above the bound or visited; otherwise mark visited,
record a complete map as a solution (lowering `lowest_energy`), and fold
every successor through `pushNew`.  `none` models a panic inside
`do_move`. -/
def loopStep (s : SearchState) : Option SearchState :=
  match s.stack with
  | [] => some s
  | map :: rest =>
    if map.energy > s.lowest then some { s with stack := rest }
    else if listContains s.visited map then some { s with stack := rest }
    else
      let visited := hsInsert s.visited map
      let solutions := if map.complete then hsInsert s.solutions map else s.solutions
      let lowest :=
        if map.complete then (if map.energy < s.lowest then map.energy else s.lowest)
        else s.lowest
      (map.possible_moves.foldlM
          (fun st mv => (map.do_move mv).map (pushNew visited solutions lowest st)) rest).map
        (fun stack => ⟨stack, visited, solutions, lowest⟩)

/-- The while-loop of `best_solution_imperative`, driven by fuel (`none`
models a panic or running out of fuel; the Rust loop runs until the stack
empties). -/
def searchLoop : Nat → SearchState → Option (List Map)
  | 0, _ => none
  | fuel + 1, s =>
    match s.stack with
    | [] => some s.solutions
    | _ :: _ => (loopStep s).bind (searchLoop fuel)

/-- `solutions.into_iter().min_by(|a, b| a.energy.cmp(&b.energy))`. -/
def minByEnergy (l : List Map) : Option Map :=
  l.foldl
    (fun acc m =>
      match acc with
      | none => some m
      | some b => if m.energy < b.energy then some m else some b)
    none

/-- Rust `Map::best_solution_imperative` (outer `Option` = panic/fuel,
inner `Option` = the Rust return value). -/
def Map.best_solution_imperative (m : Map) (fuel : Nat) : Option (Option Map) :=
  if m.complete then some (some m)
  else if m.possible_moves.isEmpty then some none
  else (searchLoop fuel ⟨[m], [], [], USIZE_MAX⟩).map minByEnergy

/-- Rust `str::lines`, modeled on the character list: split at every
newline.  (It agrees with Rust on the inputs considered here — no trailing
newline and no carriage returns; Rust would additionally drop a trailing
empty segment and strip `\r`.) -/
def splitLines (l : List Char) : List (List Char) :=
  match l with
  | [] => [[]]
  | c :: cs =>
    match splitLines cs with
    | [] => [[]]
    | r :: rs => if c = '\n' then [] :: r :: rs else (c :: r) :: rs

/-- One slot of the `from_str` parser: `lines[1 + bpos]` indexed then
`.chars().nth(b_nr * 2 + 1).unwrap()`, then the character match; `none`
models every panic (missing line, missing column, or the
`panic!("Invalid Amphipod")` arm). -/
def parse_slot (lines : List (List Char)) (b_nr bpos : Nat) : Option Amphipod := do
  let line ← lines.get? (1 + bpos)
  let c ← line.get? (b_nr * 2 + 1)
  match c with
  | 'A' => some (Amphipod.new (.Burrow b_nr bpos) .A)
  | 'B' => some (Amphipod.new (.Burrow b_nr bpos) .B)
  | 'C' => some (Amphipod.new (.Burrow b_nr bpos) .C)
  | 'D' => some (Amphipod.new (.Burrow b_nr bpos) .D)
  | _ => none

/-- Rust `impl FromStr for Map` (`type Err = String`): burrows 1..=4 outer,
slots 1..=2 inner, reading the character at line `1 + bpos`, column
`b_nr * 2 + 1`; on success always `Ok(Map { pods, energy: 0 })`.  The outer
`Option` models panics (`s.lines()` is modeled by `splitLines`). -/
def Map.from_str (s : String) : Option (Except String Map) := do
  let lines := splitLines s.toList
  let pods ←
    ((List.range 4).flatMap (fun b => (List.range 2).map (fun p => (b + 1, p + 1)))).mapM
      (fun bp => parse_slot lines bp.1 bp.2)
  some (Except.ok { pods := pods, energy := 0 })

/-- The canonical 8-occupant example diagram of the `test_solving_example`
test. -/
def exampleInput : String :=
  "#############\n#...........#\n###B#C#B#D###\n  #A#D#C#A#\n  #########"

/-- The parsed example map, exactly as `test_read_map` asserts it. -/
def exampleMap : Map :=
  { pods :=
      [Amphipod.new (.Burrow 1 1) .B, Amphipod.new (.Burrow 1 2) .A,
       Amphipod.new (.Burrow 2 1) .C, Amphipod.new (.Burrow 2 2) .D,
       Amphipod.new (.Burrow 3 1) .B, Amphipod.new (.Burrow 3 2) .C,
       Amphipod.new (.Burrow 4 1) .D, Amphipod.new (.Burrow 4 2) .A],
    energy := 0 }

example : Map.from_str exampleInput = some (Except.ok exampleMap) := by rfl

/-- The two-pod map of `test_possible_moves` / `test_solving_double`. -/
def twoPodMap : Map :=
  { pods := [Amphipod.new (.Burrow 1 2) .B, Amphipod.new (.Hallway 3) .D], energy := 0 }

example : twoPodMap.possible_moves.length = 4 := by decide

example :
    (Map.do_move { pods := [Amphipod.new (.Burrow 1 1) .A], energy := 0 }
        (Amphipod.new (.Burrow 1 1) .A, .Burrow 1 2)).map Map.energy = some 1 := by decide

example :
    (Map.do_move { pods := [Amphipod.new (.Burrow 1 1) .B], energy := 0 }
        (Amphipod.new (.Burrow 1 1) .B, .Hallway 3)).map Map.energy = some 20 := by decide

example :
    Map.eq { pods := [Amphipod.new (.Burrow 1 1) .A, Amphipod.new (.Burrow 2 1) .B], energy := 0 }
      { pods := [Amphipod.new (.Burrow 2 1) .B, Amphipod.new (.Burrow 1 1) .A], energy := 0 } =
      true := by decide

theorem path_self (a : Position) : a.path a = [] := by
  simp [Position.path]

theorem path_isWalk_all :
    ∀ a ∈ Position.all, ∀ b ∈ Position.all, isWalkFrom a (a.path b) b = true := by
  decide

theorem path_lipschitz :
    ∀ x ∈ Position.all, ∀ y ∈ Position.all, ∀ c ∈ Position.all,
      adjacent x y = true → (x.path c).length ≤ (y.path c).length + 1 := by
  decide

theorem path_palindrome :
    ∀ a ∈ Position.all, ∀ b ∈ Position.all, a :: a.path b = (b :: b.path a).reverse := by
  decide

theorem path_min_walk {b : Position} (hb : b ∈ Position.all) :
    ∀ (ws : List Position) (a : Position), a ∈ Position.all →
      isWalkFrom a ws b = true → (a.path b).length ≤ ws.length := by
  intro ws
  induction ws with
  | nil =>
      intro a _ h
      simp only [isWalkFrom, beq_iff_eq] at h
      subst h
      simp [path_self]
  | cons w ws ih =>
      intro a ha h
      simp only [isWalkFrom, Bool.and_eq_true] at h
      obtain ⟨hadj, hwalk⟩ := h
      have hw : w ∈ Position.all := (mem_all_iff_valid w).2 (adjacent_valid hadj).2
      have h1 := ih w hw hwalk
      have h2 := path_lipschitz a ha w hw b hb hadj
      simp only [List.length_cons]
      omega

theorem pathP_eq_path :
    ∀ a ∈ Position.all, ∀ b ∈ Position.all, Position.pathP 3 a b = some (a.path b) := by
  decide

/-- C5: for all pairs of valid positions `(a, b)`, `path(a, b)` is a walk
of the hallway/burrow topology from `a` to `b` (one adjacent step per
element) whose length is minimal among all such walks — the true minimum
number of discrete single-step transitions — and the two opposite paths
traverse exactly the same set of cells with the endpoints swapped. -/
theorem C5_path_correctness (a b : Position) (ha : a ∈ Position.all) (hb : b ∈ Position.all) :
    isWalkFrom a (a.path b) b = true ∧
      (∀ ws : List Position, isWalkFrom a ws b = true → (a.path b).length ≤ ws.length) ∧
      (a :: a.path b).toFinset = (b :: b.path a).toFinset := by
  refine ⟨path_isWalk_all a ha b hb, ?_, ?_⟩
  · intro ws h
    exact path_min_walk hb ws a ha h
  · rw [path_palindrome a ha b hb]
    exact List.toFinset_reverse

/-- Witness for C5 at `a = Hallway 0`, `b = Burrow 2 2`. -/
theorem C5_path_correctness_witness :
    (Position.Hallway 0 ∈ Position.all ∧ Position.Burrow 2 2 ∈ Position.all) ∧
      (isWalkFrom (Position.Hallway 0) ((Position.Hallway 0).path (Position.Burrow 2 2))
          (Position.Burrow 2 2) = true ∧
        (∀ ws : List Position,
            isWalkFrom (Position.Hallway 0) ws (Position.Burrow 2 2) = true →
              ((Position.Hallway 0).path (Position.Burrow 2 2)).length ≤ ws.length) ∧
        (Position.Hallway 0 :: (Position.Hallway 0).path (Position.Burrow 2 2)).toFinset =
          (Position.Burrow 2 2 :: (Position.Burrow 2 2).path (Position.Hallway 0)).toFinset) :=
  ⟨⟨by decide, by decide⟩, C5_path_correctness _ _ (by decide) (by decide)⟩

/-- C10: on every pair of valid positions the faithful panic-aware
transcription `pathP` of `Position::path` returns `some` — it never hits
the `panic!` fall-through, never fails a `hallway_above().unwrap()`, and
terminates within the source's recursion depth — and its value is exactly
`Position.path`. -/
theorem C10_path_no_panic (a b : Position) (ha : a ∈ Position.all) (hb : b ∈ Position.all) :
    Position.pathP 3 a b = some (a.path b) :=
  pathP_eq_path a ha b hb

/-- Witness for C10 at `a = Burrow 4 2`, `b = Burrow 1 2`. -/
theorem C10_path_no_panic_witness :
    (Position.Burrow 4 2 ∈ Position.all ∧ Position.Burrow 1 2 ∈ Position.all) ∧
      Position.pathP 3 (Position.Burrow 4 2) (Position.Burrow 1 2) =
        some ((Position.Burrow 4 2).path (Position.Burrow 1 2)) :=
  ⟨⟨by decide, by decide⟩, C10_path_no_panic _ _ (by decide) (by decide)⟩

/-- A complete Map (a single A sitting at the top of its home burrow,
`left_home` still false) — every pod `is_home`, yet moves exist. -/
def freshHomeMap : Map := { pods := [Amphipod.new (.Burrow 1 1) .A], energy := 0 }

/-- C2 counterexample: `freshHomeMap` is complete but `possible_moves()`
returns 7 moves (the pod at the top of its home burrow has not set
`left_home`, so neither early-skip of the pod loop fires and it may walk
out into the hallway). -/
theorem C2_counterexample :
    freshHomeMap.complete = true ∧ freshHomeMap.possible_moves.length = 7 := by
  decide

theorem flatMap_eq_nil_of_forall {α β : Type} {l : List α} {f : α → List β}
    (h : ∀ x ∈ l, f x = []) : l.flatMap f = [] := by
  induction l with
  | nil => rfl
  | cons x xs ih =>
      rw [List.flatMap_cons, h x (by simp), ih (fun y hy => h y (by simp [hy]))]
      rfl

/-- C2 (amended): completion alone does not silence `possible_moves()`;
but once every occupant is home AND each one either sits in the bottom
slot or has its `left_home` flag set, every pod is skipped, so
`possible_moves()` is empty — and the driver returns a complete Map
immediately, before any loop iteration, whatever the fuel. -/
theorem C2_amended_completion_stability (m : Map)
    (h : ∀ pod ∈ m.pods, pod.is_home = true ∧ (pod.is_in_bottom = true ∨ pod.left_home = true)) :
    m.possible_moves = [] ∧ ∀ fuel, m.best_solution_imperative fuel = some (some m) := by
  have hcomplete : m.complete = true := by
    simp only [Map.complete, List.all_eq_true]
    exact fun pod hp => (h pod hp).1
  have hskip : ∀ pod ∈ m.pods, podSkip pod = true := by
    intro pod hp
    obtain ⟨hh, hbl⟩ := h pod hp
    cases hbl with
    | inl hb => simp [podSkip, hb, hh]
    | inr hl => simp [podSkip, hl, hh]
  have hmoves : m.possible_moves = [] := by
    unfold Map.possible_moves
    rw [flatMap_eq_nil_of_forall (fun pod hp => by rw [hskip pod hp]; rfl)]
    rfl
  refine ⟨hmoves, fun fuel => ?_⟩
  unfold Map.best_solution_imperative
  rw [if_pos hcomplete]

/-- A settled complete Map: bottom-slot pods never moved, top-slot pods
have `left_home` set (as after arriving from the hallway). -/
def settledMap : Map :=
  { pods :=
      [{ position := .Burrow 1 1, ty := .A, left_home := true },
       { position := .Burrow 1 2, ty := .A, left_home := false },
       { position := .Burrow 2 1, ty := .B, left_home := true },
       { position := .Burrow 2 2, ty := .B, left_home := false },
       { position := .Burrow 3 1, ty := .C, left_home := true },
       { position := .Burrow 3 2, ty := .C, left_home := false },
       { position := .Burrow 4 1, ty := .D, left_home := true },
       { position := .Burrow 4 2, ty := .D, left_home := false }],
    energy := 4000 }

/-- Witness for the amended C2 on `settledMap`. -/
theorem C2_amended_witness :
    (∀ pod ∈ settledMap.pods,
        pod.is_home = true ∧ (pod.is_in_bottom = true ∨ pod.left_home = true)) ∧
      (settledMap.possible_moves = [] ∧
        ∀ fuel, settledMap.best_solution_imperative fuel = some (some settledMap)) :=
  ⟨by decide, C2_amended_completion_stability settledMap (by decide)⟩

theorem mem_free_spaces {m : Map} {f : Position} (h : f ∈ m.free_spaces) :
    f ∈ Position.all ∧ m.occupied f = false := by
  have := List.mem_filter.1 h
  simpa using this

theorem not_occupied_position {m : Map} {f : Position} (h : m.occupied f = false) :
    ∀ pod ∈ m.pods, pod.position ≠ f := by
  intro pod hp
  simp only [Map.occupied, List.any_eq_false] at h
  intro heq
  exact h pod hp (by simp [heq])

/-- Everything membership in `possible_moves` guarantees about a move. -/
theorem mem_possible_moves {m : Map} {mv : Move} (h : mv ∈ m.possible_moves) :
    mv.1 ∈ m.pods ∧ podSkip mv.1 = false ∧ mv.2 ∈ m.free_spaces ∧
      m.moveGuard mv.1 mv.2 = true ∧ m.pathFree mv.1 mv.2 = true ∧
      (∀ i, mv.2 = Position.Hallway i → i ≠ 2 ∧ i ≠ 4 ∧ i ≠ 6 ∧ i ≠ 8) := by
  unfold Map.possible_moves at h
  rw [List.mem_filter] at h
  obtain ⟨h1, h2⟩ := h
  rw [List.mem_flatMap] at h1
  obtain ⟨pod, hpod, hin⟩ := h1
  by_cases hs : podSkip pod = true
  · rw [if_pos hs] at hin
    cases hin
  · rw [if_neg hs] at hin
    rw [List.mem_map] at hin
    obtain ⟨f, hf, rfl⟩ := hin
    rw [List.mem_filter] at hf
    obtain ⟨hfree, hguard⟩ := hf
    rw [Bool.and_eq_true] at hguard
    refine ⟨hpod, by simpa using hs, hfree, hguard.1, hguard.2, ?_⟩
    intro i hi
    rw [hi] at h2
    simp only [bne] at h2
    have h3 : ((¬i = 2 ∧ ¬i = 4) ∧ ¬i = 6) ∧ ¬i = 8 := by simpa using h2
    exact ⟨h3.1.1.1, h3.1.1.2, h3.1.2, h3.2⟩

theorem updateFirst_eq_some {α : Type} {p : α → Bool} {g : α → α} {l : List α} {x : α}
    (hx : x ∈ l) (hpx : p x = true) :
    ∃ l₁ y l₂, l = l₁ ++ y :: l₂ ∧ p y = true ∧ (∀ z ∈ l₁, p z = false) ∧
      updateFirst p g l = some (l₁ ++ g y :: l₂) := by
  induction l with
  | nil => cases hx
  | cons a as ih =>
      by_cases hpa : p a = true
      · exact ⟨[], a, as, rfl, hpa, by simp, by simp [updateFirst, hpa]⟩
      · have hxas : x ∈ as := by
          cases hx with
          | head => exact absurd hpx (by simpa using hpa)
          | tail _ h => exact h
        obtain ⟨l₁, y, l₂, hsplit, hy, hfirst, hupd⟩ := ih hxas
        refine ⟨a :: l₁, y, l₂, by simp [hsplit], hy, ?_, ?_⟩
        · intro z hz
          cases hz with
          | head => simpa using hpa
          | tail _ h => exact hfirst z h
        · simp [updateFirst, hpa, hupd]

/-- Structure of a successful `do_move`: the pod list splits around the
first pod at the moved pod's position, which alone changes (via `move_to`),
and the energy grows by `distance * energy_cost`. -/
theorem do_move_spec {m : Map} {mv : Move} (hmem : mv.1 ∈ m.pods) :
    ∃ l₁ y l₂,
      m.pods = l₁ ++ y :: l₂ ∧ y.position = mv.1.position ∧
        (∀ z ∈ l₁, z.position ≠ mv.1.position) ∧
        m.do_move mv =
          some { pods := l₁ ++ y.move_to mv.2 :: l₂,
                 energy := m.energy + (mv.1.position.path mv.2).length * mv.1.ty.energy_cost } := by
  obtain ⟨l₁, y, l₂, hsplit, hy, hfirst, hupd⟩ :=
    updateFirst_eq_some (p := fun p => p.position == mv.1.position)
      (g := fun p => p.move_to mv.2) hmem (by simp)
  refine ⟨l₁, y, l₂, hsplit, by simpa using hy, ?_, ?_⟩
  · intro z hz
    have := hfirst z hz
    simpa using this
  · unfold Map.do_move
    rw [hupd]
    rfl

theorem do_move_energy {m m' : Map} {mv : Move} (h : m.do_move mv = some m') :
    m'.energy = m.energy + (mv.1.position.path mv.2).length * mv.1.ty.energy_cost := by
  unfold Map.do_move at h
  cases hu : updateFirst (fun p => p.position == mv.1.position) (fun p => p.move_to mv.2) m.pods with
  | none => rw [hu] at h; cases h
  | some pods =>
      rw [hu] at h
      cases h
      rfl

theorem energy_cost_pos (t : Ty) : 0 < t.energy_cost := by
  cases t <;> decide

theorem pathHH_length (i j : Nat) :
    (Position.pathHH i j).length = if j < i then i - j else j - i := by
  unfold Position.pathHH
  split <;> simp

theorem path_length_pos {a b : Position} (h : a ≠ b) : 0 < (a.path b).length := by
  cases a with
  | Hallway i =>
      cases b with
      | Hallway j =>
          have hij : i ≠ j := fun hh => h (by rw [hh])
          rw [Position.path, if_neg h]
          rw [pathHH_length]
          split <;> omega
      | Burrow bi bj =>
          rw [Position.path, if_neg h]
          simp only [List.length_append, List.length_cons]
          omega
  | Burrow i l =>
      cases b with
      | Hallway j =>
          rw [Position.path, if_neg h]
          simp only [List.length_append, List.length_cons]
          omega
      | Burrow k d =>
          rw [Position.path, if_neg h]
          by_cases hik : i = k
          · rw [if_pos hik]
            simp
          · rw [if_neg hik]
            simp only [List.length_append, List.length_cons]
            omega

/-- The initial loop state of `best_solution_imperative` on `twoPodMap`
(the blocking two-pod example of `test_solving_double`). -/
def twoPodStart : SearchState := ⟨[twoPodMap], [], [], USIZE_MAX⟩

/-- C3 counterexample: the driver does NOT pop lowest-cost-first.  After
the first iteration on `twoPodStart` the frontier deque holds states of
energy `[7000, 6000, 30, 40]` (front first); the second iteration removes
and visits the front state of energy 7000 — not one of minimal energy —
while the energy-30 state stays in the frontier. -/
theorem C3_counterexample_pop_order :
    (loopStep twoPodStart).map (fun s => s.stack.map Map.energy) = some [7000, 6000, 30, 40] ∧
      ((loopStep twoPodStart).bind loopStep).map (fun s => s.visited.map Map.energy) =
        some [7000, 0] ∧
      ((loopStep twoPodStart).bind loopStep).map (fun s => (s.stack.map Map.energy).contains 30) =
        some true := by
  refine ⟨by decide, by decide, by decide⟩

theorem expand_preserves_stack {m : Map} {visited solutions : List Map} {lowest : Nat}
    {moves : List Move}
    (hall : ∀ mv ∈ moves, ∃ new, m.do_move mv = some new ∧ new.energy > lowest) :
    ∀ st, moves.foldlM
        (fun st mv => (m.do_move mv).map (pushNew visited solutions lowest st)) st = some st := by
  induction moves with
  | nil => intro st; rfl
  | cons mv ms ih =>
      intro st
      obtain ⟨new, hmv, henergy⟩ := hall mv (by simp)
      have hpush : pushNew visited solutions lowest st new = st := by
        unfold pushNew
        rw [if_pos henergy]
      rw [List.foldlM_cons, hmv]
      simp only [Option.map_some', Option.bind_eq_bind, Option.some_bind, hpush]
      exact ih (fun mv' hmv' => hall mv' (by simp [hmv'])) st

/-- C3 (amended): the frontier is a LIFO deque (`pop_front` after
`push_front`), so the removed state is the most recently pushed, not one of
minimal energy; when the state popped is complete (and unpruned and
unvisited) it is recorded as a candidate solution, the best-known energy
drops to `min`, and — because every successor strictly exceeds that
bound — nothing new enters the frontier: the iteration leaves exactly the
rest of the deque. -/
theorem C3_amended_complete_pop (v sol rest : List Map) (low : Nat) (m : Map)
    (hlow : m.energy ≤ low) (hv : listContains v m = false) (hc : m.complete = true) :
    loopStep ⟨m :: rest, v, sol, low⟩ =
      some ⟨rest, hsInsert v m, hsInsert sol m, if m.energy < low then m.energy else low⟩ := by
  have hnotgt : ¬ m.energy > low := by omega
  have hlow' : (if m.energy < low then m.energy else low) ≤ m.energy := by
    split <;> omega
  have hall : ∀ mv ∈ m.possible_moves,
      ∃ new, m.do_move mv = some new ∧
        new.energy > (if m.energy < low then m.energy else low) := by
    intro mv hmv
    obtain ⟨hpod, _, hfree, _, _, _⟩ := mem_possible_moves hmv
    obtain ⟨_, hocc⟩ := mem_free_spaces hfree
    have hne : mv.1.position ≠ mv.2 := not_occupied_position hocc mv.1 hpod
    obtain ⟨l₁, y, l₂, _, _, _, hdo⟩ := do_move_spec hpod
    refine ⟨_, hdo, ?_⟩
    have h1 := path_length_pos hne
    have h2 := energy_cost_pos mv.1.ty
    simp only
    have : 0 < (mv.1.position.path mv.2).length * mv.1.ty.energy_cost :=
      Nat.mul_pos h1 h2
    omega
  unfold loopStep
  simp only [if_neg hnotgt, hv, Bool.false_eq_true, if_false, if_pos hc]
  rw [expand_preserves_stack hall rest]
  rfl

/-- Witness for the amended C3: popping the complete `settledMap` (energy
4000) against bound 5000 records it and pushes nothing. -/
theorem C3_amended_complete_pop_witness :
    (settledMap.energy ≤ 5000 ∧ listContains [] settledMap = false ∧
        settledMap.complete = true) ∧
      loopStep ⟨[settledMap], [], [], 5000⟩ =
        some ⟨[], hsInsert [] settledMap, hsInsert [] settledMap,
          if settledMap.energy < 5000 then settledMap.energy else 5000⟩ :=
  ⟨⟨by decide, by decide, by decide⟩,
    C3_amended_complete_pop [] [] [] 5000 settledMap (by decide) (by decide) (by decide)⟩

/-- A malformed diagram: `X` where an occupant letter should be. -/
def badInput : String :=
  "#############\n#...........#\n###X#C#B#D###\n  #A#D#C#A#\n  #########"

/-- Does a `from_str` outcome carry the `Err` variant of
`Result<Map, String>`? -/
def isErrResult : Option (Except String Map) → Bool
  | some (Except.error _) => true
  | _ => false

/-- C4 counterexample: on the malformed diagram `from_str` does not return
an `Err` value — it panics (`none`), so the failure is an abort, not a
surfaced parse error. -/
theorem C4_counterexample_panic_not_err : Map.from_str badInput = none := by
  rfl

theorem isErrResult_bind_ok (x : Option (List Amphipod)) :
    isErrResult (x.bind (fun pods => some (Except.ok { pods := pods, energy := 0 }))) = false := by
  cases x <;> rfl

/-- C4 (amended): a malformed input diagram (wrong occupant character or
wrong dimensions) makes `from_str` fail fast with a panic, never with an
`Err`: the success path always returns `Ok`, so no input whatsoever
produces an `Err` value. -/
theorem C4_amended_no_err :
    (∀ s : String, isErrResult (Map.from_str s) = false) ∧ Map.from_str badInput = none := by
  constructor
  · intro s
    exact isErrResult_bind_ok _
  · rfl

/-- Rust-side iterated move application: fold `do_move` over a move
sequence (panic anywhere aborts the whole sequence). -/
def Map.apply_moves (m : Map) (ms : List Move) : Option Map := ms.foldlM Map.do_move m

theorem apply_moves_energy {ms : List Move} :
    ∀ {m m' : Map}, m.apply_moves ms = some m' →
      m'.energy = m.energy +
        (ms.map (fun mv => (mv.1.position.path mv.2).length * mv.1.ty.energy_cost)).sum := by
  induction ms with
  | nil =>
      intro m m' h
      cases h
      simp
  | cons mv ms ih =>
      intro m m' h
      unfold Map.apply_moves at h
      rw [List.foldlM_cons] at h
      cases hd : m.do_move mv with
      | none => rw [hd] at h; cases h
      | some m1 =>
          rw [hd] at h
          simp only [Option.bind_eq_bind, Option.some_bind] at h
          have h1 := ih (show m1.apply_moves ms = some m' from h)
          have h2 := do_move_energy hd
          simp only [List.map_cons, List.sum_cons]
          omega

theorem apply_moves_prefix_le {m mk m' : Map} {ms : List Move} {k : Nat}
    (hk : m.apply_moves (ms.take k) = some mk) (h : m.apply_moves ms = some m') :
    mk.energy ≤ m'.energy := by
  have hsplit : ms = ms.take k ++ ms.drop k := (List.take_append_drop k ms).symm
  rw [hsplit] at h
  unfold Map.apply_moves at h hk
  rw [List.foldlM_append] at h
  rw [hk] at h
  simp only [Option.bind_eq_bind, Option.some_bind] at h
  have := apply_moves_energy (show mk.apply_moves (ms.drop k) = some m' from h)
  omega

/-- C7: over any successfully applied move sequence starting from energy 0,
the final accumulated energy is exactly the sum of
`distance * energy_per_step` over the moves (exact `Nat` arithmetic), and
accumulated energy is non-decreasing after each move: each prefix's energy
is at most the next prefix's, and every prefix's energy is at most the
final energy. -/
theorem C7_monotonic_cost (m : Map) (ms : List Move) (m' : Map)
    (h0 : m.energy = 0) (h : m.apply_moves ms = some m') :
    m'.energy = (ms.map (fun mv => (mv.1.position.path mv.2).length * mv.1.ty.energy_cost)).sum ∧
      (∀ k mk mk', m.apply_moves (ms.take k) = some mk →
        m.apply_moves (ms.take (k + 1)) = some mk' → mk.energy ≤ mk'.energy) ∧
      ∀ k mk, m.apply_moves (ms.take k) = some mk → mk.energy ≤ m'.energy := by
  refine ⟨?_, ?_, ?_⟩
  · have := apply_moves_energy h
    omega
  · intro k mk mk' hk hk1
    rw [List.take_succ] at hk1
    unfold Map.apply_moves at hk hk1
    rw [List.foldlM_append, hk] at hk1
    simp only [Option.bind_eq_bind, Option.some_bind] at hk1
    have := apply_moves_energy (show mk.apply_moves _ = some mk' from hk1)
    omega
  · intro k mk hk
    exact apply_moves_prefix_le hk h

/-- The move of `freshHomeMap`'s single pod out to `Hallway 0`. -/
def aMove : Move := (Amphipod.new (.Burrow 1 1) .A, .Hallway 0)

/-- The map after `aMove`: three steps at cost 1. -/
def aMoved : Map := { pods := [{ position := .Hallway 0, ty := .A, left_home := true }], energy := 3 }

/-- Witness for C7 on the single-move sequence `[aMove]`. -/
theorem C7_monotonic_cost_witness :
    (freshHomeMap.energy = 0 ∧ freshHomeMap.apply_moves [aMove] = some aMoved) ∧
      (aMoved.energy =
          ([aMove].map (fun mv => (mv.1.position.path mv.2).length * mv.1.ty.energy_cost)).sum ∧
        (∀ k mk mk', freshHomeMap.apply_moves ([aMove].take k) = some mk →
          freshHomeMap.apply_moves ([aMove].take (k + 1)) = some mk' →
            mk.energy ≤ mk'.energy) ∧
        ∀ k mk, freshHomeMap.apply_moves ([aMove].take k) = some mk →
          mk.energy ≤ aMoved.energy) :=
  ⟨⟨by decide, by decide⟩, C7_monotonic_cost freshHomeMap [aMove] aMoved (by decide) (by decide)⟩

theorem move_to_position (a : Amphipod) (p : Position) : (a.move_to p).position = p := by
  unfold Amphipod.move_to
  dsimp only
  split <;> rfl

theorem move_to_ty (a : Amphipod) (p : Position) : (a.move_to p).ty = a.ty := by
  unfold Amphipod.move_to
  dsimp only
  split <;> rfl

theorem moveGuard_burrow {m : Map} {pod : Amphipod} {i d : Nat}
    (h : m.moveGuard pod (Position.Burrow i d) = true) :
    pod.is_in_burrow i = false ∧ i = pod.ty.dest_burrow ∧ m.burrowDirty i = false := by
  unfold Map.moveGuard at h
  dsimp only at h
  by_cases h1 : pod.is_in_burrow i = true
  · rw [if_pos h1] at h; cases h
  · rw [if_neg h1] at h
    by_cases h2 : (!(i == pod.ty.dest_burrow)) = true
    · rw [if_pos h2] at h; cases h
    · rw [if_neg h2] at h
      refine ⟨by simpa using h1, by simpa using h2, by simpa using h⟩

theorem burrowDirty_false {m : Map} {i : Nat} (h : m.burrowDirty i = false) :
    ∀ op ∈ m.pods, ∀ oi od, op.position = Position.Burrow oi od → oi = i →
      op.ty.dest_burrow = i := by
  intro op hop oi od hpos hoi
  simp only [Map.burrowDirty, List.any_eq_false] at h
  have h2 := h op hop
  rw [hpos] at h2
  simp only [hoi] at h2
  simpa using h2

theorem is_in_burrow_position {a : Amphipod} {i : Nat} (h : a.is_in_burrow i = true) :
    ∃ d, a.position = Position.Burrow i d := by
  unfold Amphipod.is_in_burrow at h
  cases hp : a.position with
  | Hallway _ => rw [hp] at h; cases h
  | Burrow oi od =>
      rw [hp] at h
      simp only [beq_iff_eq] at h
      subst h
      exact ⟨od, rfl⟩

/-- C6: from a Map with pairwise-distinct occupant positions, applying any
move returned by `possible_moves()` succeeds and yields a Map whose
occupant positions are again pairwise distinct; and when the move enters a
burrow, that burrow afterwards contains only occupants whose destination
burrow it is (the just-moved occupant included). -/
theorem C6_move_legality_soundness (m : Map) (hd : (m.pods.map Amphipod.position).Nodup)
    (mv : Move) (hmv : mv ∈ m.possible_moves) :
    ∃ m', m.do_move mv = some m' ∧ (m'.pods.map Amphipod.position).Nodup ∧
      ∀ i d, mv.2 = Position.Burrow i d →
        ∀ pod ∈ m'.pods, pod.is_in_burrow i = true → pod.ty.dest_burrow = i := by
  obtain ⟨hpod, _, hfree, hguard, _, _⟩ := mem_possible_moves hmv
  obtain ⟨_, hocc⟩ := mem_free_spaces hfree
  have hnotocc := not_occupied_position hocc
  obtain ⟨l₁, y, l₂, hsplit, hypos, _, hdo⟩ := do_move_spec hpod
  have hyin : y ∈ m.pods := by rw [hsplit]; simp
  have hl₁sub : ∀ z ∈ l₁, z ∈ m.pods := by intro z hz; rw [hsplit]; simp [hz]
  have hl₂sub : ∀ z ∈ l₂, z ∈ m.pods := by intro z hz; rw [hsplit]; simp [hz]
  refine ⟨_, hdo, ?_, ?_⟩
  · have hd' : (l₁.map Amphipod.position ++ y.position :: l₂.map Amphipod.position).Nodup := by
      have := hd
      rw [hsplit] at this
      simpa using this
    rw [List.nodup_middle] at hd'
    obtain ⟨hynot, hrest⟩ := List.nodup_cons.1 hd'
    have hnew : (mv.2 :: (l₁.map Amphipod.position ++ l₂.map Amphipod.position)).Nodup := by
      rw [List.nodup_cons]
      refine ⟨?_, hrest⟩
      intro hmem
      rcases List.mem_append.1 hmem with hmem1 | hmem2
      · obtain ⟨z, hz, hzpos⟩ := List.mem_map.1 hmem1
        exact hnotocc z (hl₁sub z hz) hzpos
      · obtain ⟨z, hz, hzpos⟩ := List.mem_map.1 hmem2
        exact hnotocc z (hl₂sub z hz) hzpos
    rw [← List.nodup_middle] at hnew
    simpa [move_to_position] using hnew
  · intro i d hburrow pod hmem hinb
    rw [hburrow] at hguard
    obtain ⟨_, hdest, hdirty⟩ := moveGuard_burrow hguard
    have hy_eq : y = mv.1 := List.inj_on_of_nodup_map hd hyin hpod hypos
    simp only [List.mem_append, List.mem_cons] at hmem
    rcases hmem with hmem1 | hmem2 | hmem3
    · obtain ⟨od, hpos⟩ := is_in_burrow_position hinb
      exact burrowDirty_false hdirty pod (hl₁sub pod hmem1) i od hpos rfl
    · subst hmem2
      rw [move_to_ty, hy_eq]
      exact hdest.symm
    · obtain ⟨od, hpos⟩ := is_in_burrow_position hinb
      exact burrowDirty_false hdirty pod (hl₂sub pod hmem3) i od hpos rfl

/-- The D pod's move home from the hallway in `twoPodMap`. -/
def dMove : Move := (Amphipod.new (.Hallway 3) .D, .Burrow 4 2)

/-- Witness for C6 on `twoPodMap` and `dMove`. -/
theorem C6_move_legality_soundness_witness :
    ((twoPodMap.pods.map Amphipod.position).Nodup ∧ dMove ∈ twoPodMap.possible_moves) ∧
      (∃ m', twoPodMap.do_move dMove = some m' ∧ (m'.pods.map Amphipod.position).Nodup ∧
        ∀ i d, dMove.2 = Position.Burrow i d →
          ∀ pod ∈ m'.pods, pod.is_in_burrow i = true → pod.ty.dest_burrow = i) :=
  ⟨⟨by decide, by decide⟩, C6_move_legality_soundness twoPodMap (by decide) dMove (by decide)⟩

/-- The grid cell (row, column) a position paints in the rendering. -/
def cellOf : Position → Nat × Nat
  | .Hallway i => (0, i)
  | .Burrow i j => (j, i * 2)

theorem cellOf_inj :
    ∀ a ∈ Position.all, ∀ b ∈ Position.all, a ≠ b → cellOf a ≠ cellOf b := by
  decide

theorem getD_set_self {g : List (List Char)} {r : Nat} {X : List Char} (h : r < g.length) :
    (g.set r X).getD r [] = X := by
  simp [List.getD_eq_getElem?_getD, List.getElem?_set_self h]

theorem getD_set_ne {g : List (List Char)} {r r' : Nat} {X : List Char} (h : r ≠ r') :
    (g.set r X).getD r' [] = g.getD r' [] := by
  simp [List.getD_eq_getElem?_getD, List.getElem?_set_ne h]

theorem set2d_comm {g : List (List Char)} {r c r' c' : Nat} {a b : Char}
    (h : (r, c) ≠ (r', c')) :
    set2d (set2d g r c a) r' c' b = set2d (set2d g r' c' b) r c a := by
  by_cases hr : r = r'
  · subst hr
    have hc : c ≠ c' := fun hcc => h (by rw [hcc])
    by_cases hlen : r < g.length
    · unfold set2d
      rw [getD_set_self hlen, getD_set_self hlen, List.set_set, List.set_set,
        List.set_comm _ _ _ hc]
    · have hle : g.length ≤ r := by omega
      have e1 : ∀ (cc : Nat) (ch : Char), set2d g r cc ch = g := fun cc ch =>
        List.set_eq_of_length_le hle
      rw [e1, e1, e1]
  · unfold set2d
    rw [getD_set_ne hr, getD_set_ne (Ne.symm hr)]
    exact List.set_comm _ _ _ hr

theorem strGrid_eq_foldl (m : Map) :
    m.strGrid = (m.pods.map (fun pod => (pod.position, pod.ty))).foldl
      (fun g pt => set2d g (cellOf pt.1).1 (cellOf pt.1).2 pt.2.to_char) baseGrid := by
  unfold Map.strGrid
  rw [List.foldl_map]
  congr 1
  funext g pod
  cases hp : pod.position <;> simp [hp, cellOf]

theorem paint_comm {x y : Position × Ty}
    (hx : x.1 ∈ Position.all) (hy : y.1 ∈ Position.all) (hxy : x.1 ≠ y.1) (g : List (List Char)) :
    set2d (set2d g (cellOf x.1).1 (cellOf x.1).2 x.2.to_char)
        (cellOf y.1).1 (cellOf y.1).2 y.2.to_char =
      set2d (set2d g (cellOf y.1).1 (cellOf y.1).2 y.2.to_char)
        (cellOf x.1).1 (cellOf x.1).2 x.2.to_char := by
  have hcell := cellOf_inj x.1 hx y.1 hy hxy
  apply set2d_comm
  intro hp
  exact hcell hp

/-- C8: the canonical structural key (`str_rep` plus `energy`, feeding both
`PartialEq` and `Hash`) of a Map with valid, pairwise-distinct occupant
positions depends only on the multiset of `(position, type)` assignments
and the energy.  Two Maps whose occupants are permutations of one another
as `(position, type)` pairs — their `left_home` flags free to differ, since
the key never reads them — and whose energies agree have equal keys and
compare equal. -/
theorem C8_canonical_key (m1 m2 : Map)
    (hv : ∀ pod ∈ m1.pods, pod.position ∈ Position.all)
    (hd : (m1.pods.map Amphipod.position).Nodup)
    (hp : (m1.pods.map (fun p => (p.position, p.ty))).Perm
      (m2.pods.map (fun p => (p.position, p.ty))))
    (he : m1.energy = m2.energy) :
    m1.key = m2.key ∧ m1.eq m2 = true := by
  have hgrid : m1.strGrid = m2.strGrid := by
    rw [strGrid_eq_foldl, strGrid_eq_foldl]
    apply hp.foldl_eq'
    intro x hx y hy g
    by_cases hxy : x = y
    · subst hxy; rfl
    · obtain ⟨px, hpx, hpx2⟩ := List.mem_map.1 hx
      obtain ⟨py, hpy, hpy2⟩ := List.mem_map.1 hy
      have hx1 : x.1 ∈ Position.all := by rw [← hpx2]; exact hv px hpx
      have hy1 : y.1 ∈ Position.all := by rw [← hpy2]; exact hv py hpy
      have hne : x.1 ≠ y.1 := by
        intro hq
        apply hxy
        have hpos : px.position = py.position := by
          have e1 : px.position = x.1 := by rw [← hpx2]
          have e2 : py.position = y.1 := by rw [← hpy2]
          rw [e1, e2, hq]
        have hpp : px = py := List.inj_on_of_nodup_map hd hpx hpy hpos
        rw [← hpx2, ← hpy2, hpp]
      exact paint_comm hx1 hy1 hne g
  have hstr : m1.str_rep = m2.str_rep := by
    unfold Map.str_rep
    rw [hgrid]
  refine ⟨?_, ?_⟩
  · unfold Map.key
    rw [hstr, he]
  · unfold Map.eq
    rw [hstr, he]
    simp

/-- Key example: same placement, swapped order, different `left_home`
flags, same energy. -/
def keyMapA : Map :=
  { pods := [{ position := .Burrow 1 1, ty := .A, left_home := false },
             { position := .Burrow 2 1, ty := .B, left_home := true }],
    energy := 5 }

/-- `keyMapA` with the pod order swapped and both flags flipped. -/
def keyMapB : Map :=
  { pods := [{ position := .Burrow 2 1, ty := .B, left_home := false },
             { position := .Burrow 1 1, ty := .A, left_home := true }],
    energy := 5 }

/-- Witness for C8 on `keyMapA` / `keyMapB`. -/
theorem C8_canonical_key_witness :
    ((∀ pod ∈ keyMapA.pods, pod.position ∈ Position.all) ∧
        (keyMapA.pods.map Amphipod.position).Nodup ∧
        (keyMapA.pods.map (fun p => (p.position, p.ty))).Perm
          (keyMapB.pods.map (fun p => (p.position, p.ty))) ∧
        keyMapA.energy = keyMapB.energy) ∧
      (keyMapA.key = keyMapB.key ∧ keyMapA.eq keyMapB = true) :=
  ⟨⟨by decide, by decide, List.Perm.swap _ _ _, rfl⟩,
    C8_canonical_key _ _ (by decide) (by decide) (List.Perm.swap _ _ _) rfl⟩

theorem updateFirst_mem {α : Type} {p : α → Bool} {g : α → α} :
    ∀ {l l' : List α}, updateFirst p g l = some l' → ∀ x ∈ l', x ∈ l ∨ ∃ y ∈ l, x = g y := by
  intro l
  induction l with
  | nil => intro l' h; cases h
  | cons a as ih =>
      intro l' h x hx
      unfold updateFirst at h
      by_cases hpa : p a = true
      · rw [if_pos hpa] at h
        cases h
        cases hx with
        | head => exact Or.inr ⟨a, by simp, rfl⟩
        | tail _ ht => exact Or.inl (List.mem_cons_of_mem a ht)
      · rw [if_neg hpa] at h
        cases hu : updateFirst p g as with
        | none => rw [hu] at h; cases h
        | some as' =>
            rw [hu] at h
            simp only [Option.map_some'] at h
            cases h
            cases hx with
            | head => exact Or.inl (by simp)
            | tail _ ht =>
                rcases ih hu x ht with h1 | ⟨y, hy, hxy⟩
                · exact Or.inl (by simp [h1])
                · exact Or.inr ⟨y, by simp [hy], hxy⟩

theorem do_move_mem {m m' : Map} {mv : Move} (h : m.do_move mv = some m') :
    ∀ pod ∈ m'.pods, pod ∈ m.pods ∨ ∃ y ∈ m.pods, pod = y.move_to mv.2 := by
  unfold Map.do_move at h
  cases hu : updateFirst (fun p => p.position == mv.1.position)
      (fun p => p.move_to mv.2) m.pods with
  | none => rw [hu] at h; cases h
  | some pods =>
      rw [hu] at h
      cases h
      intro pod hpod
      exact updateFirst_mem hu pod hpod

theorem mapM_mem {α β : Type} {f : α → Option β} :
    ∀ {l : List α} {res : List β}, l.mapM f = some res → ∀ b ∈ res, ∃ a ∈ l, f a = some b := by
  intro l
  induction l with
  | nil =>
      intro res h b hb
      rw [List.mapM_nil] at h
      cases h
      cases hb
  | cons a as ih =>
      intro res h b hb
      rw [List.mapM_cons] at h
      cases hfa : f a with
      | none => rw [hfa] at h; cases h
      | some b0 =>
          rw [hfa] at h
          simp only [Option.bind_eq_bind, Option.some_bind] at h
          cases hrest : as.mapM f with
          | none => rw [hrest] at h; cases h
          | some bs =>
              rw [hrest] at h
              simp only [Option.some_bind, Option.pure_def] at h
              cases h
              cases hb with
              | head => exact ⟨a, by simp, hfa⟩
              | tail _ htail =>
                  obtain ⟨a', ha', hfa'⟩ := ih hrest b htail
                  exact ⟨a', by simp [ha'], hfa'⟩

theorem parse_slot_burrow {lines : List (List Char)} {b p : Nat} {pod : Amphipod}
    (h : parse_slot lines b p = some pod) : pod.position = Position.Burrow b p := by
  unfold parse_slot at h
  cases h1 : lines.get? (1 + p) with
  | none => rw [h1] at h; cases h
  | some line =>
      rw [h1] at h
      simp only [Option.bind_eq_bind, Option.some_bind] at h
      cases h2 : line.get? (b * 2 + 1) with
      | none => rw [h2] at h; cases h
      | some c =>
          rw [h2] at h
          simp only [Option.some_bind] at h
          split at h <;> first
            | (cases h; rfl)
            | cases h

theorem bind_ok_inv {x : Option (List Amphipod)} {m : Map}
    (h : (x.bind (fun pods => some (Except.ok (ε := String)
        { pods := pods, energy := 0 }))) = some (Except.ok m)) :
    x = some m.pods ∧ m.energy = 0 := by
  cases x with
  | none => cases h
  | some pods =>
      simp only [Option.some_bind, Option.some.injEq, Except.ok.injEq] at h
      rw [← h]
      exact ⟨rfl, rfl⟩

theorem from_str_pods_in_burrow {s : String} {m : Map}
    (h : Map.from_str s = some (Except.ok m)) :
    ∀ pod ∈ m.pods, ∃ b p, pod.position = Position.Burrow b p := by
  unfold Map.from_str at h
  obtain ⟨hm, _⟩ := bind_ok_inv h
  intro pod hpod
  obtain ⟨bp, _, hslot⟩ := mapM_mem hm pod hpod
  exact ⟨bp.1, bp.2, parse_slot_burrow hslot⟩

/-- States reachable from `m0` by repeatedly choosing a generated move and
applying it with `do_move`. -/
inductive reachable (m0 : Map) : Map → Prop
  | refl : reachable m0 m0
  | step {m m' : Map} {mv : Move} : reachable m0 m → mv ∈ m.possible_moves →
      m.do_move mv = some m' → reachable m0 m'

/-- C9: starting from any successfully parsed initial Map, no occupant of
any reachable state ever stops on a hallway cell directly above a burrow
(hallway indices 2, 4, 6, 8): the parser puts every occupant in a burrow,
and the final filter of `possible_moves()` never offers those cells as a
destination. -/
theorem C9_transit_cells_never_occupied (s : String) (m0 : Map)
    (hparse : Map.from_str s = some (Except.ok m0)) (m : Map) (hr : reachable m0 m) :
    ∀ pod ∈ m.pods, ∀ i, pod.position = Position.Hallway i →
      i ≠ 2 ∧ i ≠ 4 ∧ i ≠ 6 ∧ i ≠ 8 := by
  induction hr with
  | refl =>
      intro pod hpod i hpos
      obtain ⟨b, p, hb⟩ := from_str_pods_in_burrow hparse pod hpod
      rw [hb] at hpos
      cases hpos
  | step hprev hmv hdo ih =>
      intro pod hpod i hpos
      rcases do_move_mem hdo pod hpod with hold | ⟨y, _, rfl⟩
      · exact ih pod hold i hpos
      · rw [move_to_position] at hpos
        obtain ⟨_, _, _, _, _, hfilter⟩ := mem_possible_moves hmv
        exact hfilter i hpos

/-- The B pod's opening move to `Hallway 0` in the example. -/
def bMove : Move := (Amphipod.new (.Burrow 1 1) .B, .Hallway 0)

/-- The example map after `bMove`: three steps at cost 10. -/
def exampleStep1 : Map :=
  { pods :=
      [{ position := .Hallway 0, ty := .B, left_home := true },
       Amphipod.new (.Burrow 1 2) .A,
       Amphipod.new (.Burrow 2 1) .C, Amphipod.new (.Burrow 2 2) .D,
       Amphipod.new (.Burrow 3 1) .B, Amphipod.new (.Burrow 3 2) .C,
       Amphipod.new (.Burrow 4 1) .D, Amphipod.new (.Burrow 4 2) .A],
    energy := 30 }

/-- Witness for C9 one step into the example search. -/
theorem C9_transit_cells_never_occupied_witness :
    (Map.from_str exampleInput = some (Except.ok exampleMap) ∧
        bMove ∈ exampleMap.possible_moves ∧ exampleMap.do_move bMove = some exampleStep1) ∧
      (∀ pod ∈ exampleStep1.pods, ∀ i, pod.position = Position.Hallway i →
        i ≠ 2 ∧ i ≠ 4 ∧ i ≠ 6 ∧ i ≠ 8) :=
  ⟨⟨by rfl, by decide, by decide⟩,
    C9_transit_cells_never_occupied exampleInput exampleMap (by rfl) exampleStep1
      (@reachable.step exampleMap exampleMap exampleStep1 bMove reachable.refl
        (by decide) (by decide))⟩

end Day23
